import Mathlib

/-!
# Verification of the screenshot OrderingStore (pm-tool-v2 sort page)

Shallow embedding of the client-side screenshot ordering and
batched-mutation manager used by the sort page
(`src/pm-tool-v2/frontend/src/app/sort/page.tsx`) together with the
sort store it drives.  The store module itself (`@/store/sort`,
`useSortStore`) is not part of the source tree; operations that live
in that module are modelled from the specification and marked as such
in their doc comments.  Everything defined directly from the page
source (the drop-insertion splice, the shift-click range selection,
the delete-key and delete-button guards) is annotated with the source
location it embeds.
-/

namespace OrderingStore

/-- `ScreenshotRef` from the data model: `{ filename, path }`;
identity is the filename. -/
structure Screenshot where
  filename : String
  path : String
deriving DecidableEq

/-- `DeletedBatch`: timestamp key, the removed items in their original
relative order, and their count. -/
structure DeletedBatch where
  timestamp : String
  items : List Screenshot
  count : Nat
deriving DecidableEq

/-- The sort store state used by the page: `sortedScreenshots`,
`deletedBatches`, `selectedFiles`, `hasChanges` (the DirtyFlag). -/
structure SortState where
  sortedScreenshots : List Screenshot
  deletedBatches : List DeletedBatch
  selectedFiles : Finset String
  hasChanges : Bool

/-- Error taxonomy of the spec (section 7). -/
inductive SortError where
  | duplicateKey
  | emptySelection
  | batchNotFound
  | fetchError
  | persistError
deriving DecidableEq

/-- Filenames of a collection, in display order. -/
def filenames (l : List Screenshot) : List String :=
  l.map Screenshot.filename

/-- Modelled from the spec: the sort store module (`@/store/sort`) is
missing from the source tree; its `reorder` performs a single-element
move with dnd-kit `arrayMove` semantics — remove the element at `i`,
then splice it back in at position `j` of the shortened list. -/
def arrayMove {α : Type} (l : List α) (i j : Nat) : List α :=
  match l[i]? with
  | none => l
  | some x => ((l.eraseIdx i).take j) ++ x :: ((l.eraseIdx i).drop j)

/-- Modelled from the spec: store operation `reorder(fromIndex, toIndex)`
— moves the element at `fromIndex` to `toIndex`, no-op when the two
indices coincide, sets the DirtyFlag. -/
def reorder (s : SortState) (i j : Nat) : SortState :=
  if i = j then s
  else { s with sortedScreenshots := arrayMove s.sortedScreenshots i j,
                hasChanges := true }

/-- Shorthand for a screenshot whose path is empty (as built by the
drop handler in the page source). -/
def scr (f : String) : Screenshot :=
  ⟨f, ""⟩

/-- The `[a,b,c,d]` collection of the spec scenario. -/
def demoABCD : SortState :=
  ⟨[scr "a", scr "b", scr "c", scr "d"], [], ∅, false⟩

theorem eq_take_cons_drop {α : Type} {l : List α} {i : Nat} (h : i < l.length) :
    l = l.take i ++ l[i] :: l.drop (i + 1) := by
  conv_lhs => rw [← List.take_append_drop i l]
  rw [List.drop_eq_getElem_cons h]

theorem arrayMove_perm {α : Type} (l : List α) (i j : Nat) (h : i < l.length) :
    (arrayMove l i j).Perm l := by
  unfold arrayMove
  rw [List.getElem?_eq_getElem h]
  have h1 : List.Perm (((l.eraseIdx i).take j) ++ l[i] :: ((l.eraseIdx i).drop j))
      (l[i] :: ((l.eraseIdx i).take j ++ (l.eraseIdx i).drop j)) := List.perm_middle
  rw [List.take_append_drop] at h1
  refine h1.trans ?_
  have h2 : l = l.take i ++ l[i] :: l.drop (i + 1) := eq_take_cons_drop h
  have h3 : l.eraseIdx i = l.take i ++ l.drop (i + 1) :=
    List.eraseIdx_eq_take_drop_succ l i
  rw [h3]
  refine List.Perm.symm ?_
  have h4 : List.Perm (l.take i ++ l[i] :: l.drop (i + 1))
      (l[i] :: (l.take i ++ l.drop (i + 1))) := List.perm_middle
  conv_lhs => rw [h2]
  exact h4

theorem arrayMove_length {α : Type} (l : List α) (i j : Nat) (h : i < l.length) :
    (arrayMove l i j).length = l.length :=
  (arrayMove_perm l i j h).length_eq

theorem arrayMove_eraseIdx {α : Type} (l : List α) (i j : Nat)
    (hi : i < l.length) (hj : j ≤ l.length - 1) :
    (arrayMove l i j).eraseIdx j = l.eraseIdx i := by
  unfold arrayMove
  rw [List.getElem?_eq_getElem hi]
  have hlen : (l.eraseIdx i).length = l.length - 1 :=
    List.length_eraseIdx_of_lt hi
  have htk : ((l.eraseIdx i).take j).length = j := by
    rw [List.length_take, hlen]
    exact Nat.min_eq_left hj
  rw [List.eraseIdx_append_of_length_le (by rw [htk]) _, htk, Nat.sub_self]
  simp [List.take_append_drop]

/-- C1: for valid indices, `reorder` preserves the multiset of
filenames and the length of the collection, preserves the relative
order of every element other than the moved one (single-element move:
deleting the moved element from position `toIndex` of the result gives
the original list with position `fromIndex` deleted), and is a no-op
when the two indices coincide; on `[a,b,c,d]`, `reorder(0,3)` yields
`[b,c,d,a]`. -/
theorem claim_C1_reorder :
    (∀ (s : SortState) (i j : Nat),
      i < s.sortedScreenshots.length → j < s.sortedScreenshots.length →
      (filenames (reorder s i j).sortedScreenshots).Perm
          (filenames s.sortedScreenshots) ∧
      (reorder s i j).sortedScreenshots.length = s.sortedScreenshots.length ∧
      (i ≠ j →
        (reorder s i j).sortedScreenshots.eraseIdx j =
          s.sortedScreenshots.eraseIdx i) ∧
      (i = j → reorder s i j = s)) ∧
    (reorder demoABCD 0 3).sortedScreenshots =
      [scr "b", scr "c", scr "d", scr "a"] := by
  constructor
  · intro s i j hi hj
    by_cases hij : i = j
    · subst hij
      refine ⟨by simp [reorder], by simp [reorder], by simp, fun _ => by simp [reorder]⟩
    · have hmove : (reorder s i j).sortedScreenshots =
          arrayMove s.sortedScreenshots i j := by
        simp [reorder, hij]
      refine ⟨?_, ?_, ?_, fun h => absurd h hij⟩
      · rw [hmove]
        exact ((arrayMove_perm _ i j hi).map _)
      · rw [hmove]
        exact arrayMove_length _ i j hi
      · intro _
        rw [hmove]
        exact arrayMove_eraseIdx _ i j hi (Nat.le_sub_one_of_lt hj)
  · decide

/-- Witness for C1 at the concrete scenario input. -/
theorem claim_C1_witness :
    (0 < demoABCD.sortedScreenshots.length ∧
     3 < demoABCD.sortedScreenshots.length) ∧
    (filenames (reorder demoABCD 0 3).sortedScreenshots).Perm
        (filenames demoABCD.sortedScreenshots) :=
  ⟨⟨by decide, by decide⟩,
    (claim_C1_reorder.1 demoABCD 0 3 (by decide) (by decide)).1⟩

/-- Embedded from `src/pm-tool-v2/frontend/src/app/sort/page.tsx`,
`handleDrop`: the insertion splice
`[...current.slice(0, targetIndex), ...news, ...current.slice(targetIndex)]`
(used both for a single imported pending screenshot and for a batch of
uploaded files). -/
def handleDropInsert (current : List Screenshot) (targetIndex : Nat)
    (news : List Screenshot) : List Screenshot :=
  current.take targetIndex ++ news ++ current.drop targetIndex

/-- Modelled from the spec: store operation `insertAt(index, items)` —
fails with `DuplicateKeyError` when any incoming filename is already in
the collection, otherwise splices the items in starting at `index`
(the splice itself is the one embedded from the page source) and sets
the DirtyFlag. -/
def insertAt (s : SortState) (index : Nat) (items : List Screenshot) :
    Except SortError SortState :=
  if items.any (fun it => decide (it.filename ∈ filenames s.sortedScreenshots))
  then .error .duplicateKey
  else .ok { s with
    sortedScreenshots := handleDropInsert s.sortedScreenshots index items,
    hasChanges := true }

/-- The `[a,b]` collection of the spec scenarios. -/
def demoAB : SortState :=
  ⟨[scr "a", scr "b"], [], ∅, false⟩

/-- C2: for every collection, valid index and non-empty item sequence,
if any incoming filename already exists in the collection then
`insertAt` fails with `DuplicateKeyError`; the operation returns no new
state, so the collection is unchanged. -/
theorem claim_C2_insertAt_duplicate :
    ∀ (s : SortState) (index : Nat) (items : List Screenshot),
      index ≤ s.sortedScreenshots.length → items ≠ [] →
      (∃ it ∈ items, it.filename ∈ filenames s.sortedScreenshots) →
      insertAt s index items = .error .duplicateKey := by
  intro s index items _ _ hdup
  have hany : items.any
      (fun it => decide (it.filename ∈ filenames s.sortedScreenshots)) = true := by
    rw [List.any_eq_true]
    obtain ⟨it, hmem, hfile⟩ := hdup
    exact ⟨it, hmem, by simpa using hfile⟩
  simp [insertAt, hany]

/-- Witness for C2 at a concrete duplicate insertion. -/
theorem claim_C2_witness :
    (1 ≤ demoAB.sortedScreenshots.length ∧ [scr "a"] ≠ ([] : List Screenshot) ∧
      ∃ it ∈ [scr "a"], it.filename ∈ filenames demoAB.sortedScreenshots) ∧
    insertAt demoAB 1 [scr "a"] = .error .duplicateKey :=
  ⟨⟨by decide, by decide, ⟨scr "a", by decide, by decide⟩⟩,
    claim_C2_insertAt_duplicate demoAB 1 [scr "a"] (by decide) (by decide)
      ⟨scr "a", by decide, by decide⟩⟩

/-- C6: for every collection, every index `0 ≤ index ≤ length` and
every non-empty sequence of fresh items, `insertAt` succeeds, sets the
DirtyFlag, and splices the items in starting at `index`: elements
before `index` are unchanged, the new items follow in order, and every
original element from position `index` on is shifted right by the
number of inserted items; `insertAt(1, [x])` on `[a,b]` yields
`[a,x,b]`. -/
theorem claim_C6_insertAt_splice :
    (∀ (s : SortState) (index : Nat) (items : List Screenshot),
      index ≤ s.sortedScreenshots.length → items ≠ [] →
      (∀ it ∈ items, it.filename ∉ filenames s.sortedScreenshots) →
      ∃ s', insertAt s index items = .ok s' ∧
        s'.hasChanges = true ∧
        s'.sortedScreenshots.length = s.sortedScreenshots.length + items.length ∧
        (∀ k, k < index → s'.sortedScreenshots[k]? = s.sortedScreenshots[k]?) ∧
        (∀ k, k < items.length →
          s'.sortedScreenshots[index + k]? = items[k]?) ∧
        (∀ k, index ≤ k →
          s'.sortedScreenshots[k + items.length]? = s.sortedScreenshots[k]?)) ∧
    insertAt demoAB 1 [scr "x"] =
      .ok ⟨[scr "a", scr "x", scr "b"], [], ∅, true⟩ := by
  constructor
  · intro s index items hindex _ hfresh
    have hany : items.any
        (fun it => decide (it.filename ∈ filenames s.sortedScreenshots)) = false := by
      rw [List.any_eq_false]
      intro it hmem
      simpa using hfresh it hmem
    refine ⟨{ s with
        sortedScreenshots := handleDropInsert s.sortedScreenshots index items,
        hasChanges := true },
      by simp [insertAt, hany], rfl, ?_, ?_, ?_, ?_⟩
    · simp [handleDropInsert, List.length_take, List.length_drop]
      omega
    · intro k hk
      have htk : (s.sortedScreenshots.take index).length = index := by
        simp [List.length_take]
        omega
      rw [handleDropInsert, List.append_assoc,
        List.getElem?_append_left (by rw [htk]; exact hk), List.getElem?_take]
      simp [hk]
    · intro k hk
      have htk : (s.sortedScreenshots.take index).length = index := by
        simp [List.length_take]
        omega
      rw [handleDropInsert, List.append_assoc,
        List.getElem?_append_right (by rw [htk]; omega), htk,
        Nat.add_sub_cancel_left,
        List.getElem?_append_left hk]
    · intro k hk
      have htk : (s.sortedScreenshots.take index).length = index := by
        simp [List.length_take]
        omega
      rw [handleDropInsert, List.append_assoc,
        List.getElem?_append_right (by rw [htk]; omega), htk,
        List.getElem?_append_right (by omega),
        List.getElem?_drop]
      congr 1
      omega
  · rfl

/-- Witness for C6 at the concrete `[a,b]` scenario. -/
theorem claim_C6_witness :
    (1 ≤ demoAB.sortedScreenshots.length ∧ [scr "x"] ≠ ([] : List Screenshot) ∧
      ∀ it ∈ [scr "x"], it.filename ∉ filenames demoAB.sortedScreenshots) ∧
    ∃ s', insertAt demoAB 1 [scr "x"] = .ok s' ∧
      s'.hasChanges = true ∧
      s'.sortedScreenshots.length =
        demoAB.sortedScreenshots.length + [scr "x"].length ∧
      (∀ k, k < 1 → s'.sortedScreenshots[k]? = demoAB.sortedScreenshots[k]?) ∧
      (∀ k, k < [scr "x"].length →
        s'.sortedScreenshots[1 + k]? = [scr "x"][k]?) ∧
      (∀ k, 1 ≤ k →
        s'.sortedScreenshots[k + [scr "x"].length]? =
          demoAB.sortedScreenshots[k]?) :=
  ⟨⟨by decide, by decide, by decide⟩,
    claim_C6_insertAt_splice.1 demoAB 1 [scr "x"] (by decide) (by decide)
      (by decide)⟩

/-- Modelled from the spec: store operation `deleteSelected()` —
requires a non-empty SelectionSet; removes every selected filename
from the collection keeping the survivors in order, captures the
removed items in their original relative order plus a fresh timestamp
into a new `DeletedBatch` appended to the undo log, clears the
SelectionSet and sets the DirtyFlag; fails with `EmptySelectionError`
on an empty selection.  The timestamp is passed in by the caller
(modelling the fresh clock reading). -/
def deleteSelected (s : SortState) (ts : String) : Except SortError SortState :=
  if s.selectedFiles = ∅ then .error .emptySelection
  else
    let removed :=
      s.sortedScreenshots.filter (fun x => decide (x.filename ∈ s.selectedFiles))
    .ok { sortedScreenshots :=
            s.sortedScreenshots.filter
              (fun x => !decide (x.filename ∈ s.selectedFiles)),
          deletedBatches := s.deletedBatches ++ [⟨ts, removed, removed.length⟩],
          selectedFiles := ∅,
          hasChanges := true }

/-- Modelled from the spec: store operation `restoreBatch(timestamp)` —
looks the batch up by timestamp, fails with `BatchNotFoundError` when
absent, re-inserts its items at the end of the collection (append
policy), removes the batch from the undo log and sets the DirtyFlag. -/
def restoreBatch (s : SortState) (ts : String) : Except SortError SortState :=
  match s.deletedBatches.find? (fun b => b.timestamp == ts) with
  | none => .error .batchNotFound
  | some b =>
    .ok { sortedScreenshots := s.sortedScreenshots ++ b.items,
          deletedBatches := s.deletedBatches.eraseP (fun x => x.timestamp == ts),
          selectedFiles := s.selectedFiles,
          hasChanges := true }

theorem mem_filenames_filter_not_sel (l : List Screenshot) (sel : Finset String)
    (f : String) :
    (f ∈ filenames (l.filter (fun x => !decide (x.filename ∈ sel)))) ↔
      f ∈ filenames l ∧ f ∉ sel := by
  simp only [filenames, List.mem_map, List.mem_filter, Bool.not_eq_eq_eq_not,
    Bool.not_true, decide_eq_false_iff_not]
  constructor
  · rintro ⟨x, ⟨hx, hnot⟩, rfl⟩
    exact ⟨⟨x, hx, rfl⟩, hnot⟩
  · rintro ⟨⟨x, hx, rfl⟩, hnot⟩
    exact ⟨x, ⟨hx, hnot⟩, rfl⟩

theorem mem_filenames_filter_sel (l : List Screenshot) (sel : Finset String)
    (f : String) :
    (f ∈ filenames (l.filter (fun x => decide (x.filename ∈ sel)))) ↔
      f ∈ filenames l ∧ f ∈ sel := by
  simp only [filenames, List.mem_map, List.mem_filter, decide_eq_true_eq]
  constructor
  · rintro ⟨x, ⟨hx, hin⟩, rfl⟩
    exact ⟨⟨x, hx, rfl⟩, hin⟩
  · rintro ⟨⟨x, hx, rfl⟩, hin⟩
    exact ⟨x, ⟨hx, hin⟩, rfl⟩

theorem filenames_sublist_of_sublist {l₁ l₂ : List Screenshot}
    (h : l₁.Sublist l₂) : (filenames l₁).Sublist (filenames l₂) :=
  h.map Screenshot.filename

/-- The `[a,b,c]` collection with `{b}` selected, from the spec
scenario. -/
def demoABCsel : SortState :=
  ⟨[scr "a", scr "b", scr "c"], [], {"b"}, false⟩

/-- C3: with a non-empty selection and a fresh timestamp,
`deleteSelected` removes exactly the selected filenames keeping the
survivors in their relative order, appends one `DeletedBatch` holding
the removed items in their original relative order under the fresh
timestamp (which is unique in the resulting undo log), clears the
SelectionSet and sets the DirtyFlag; with an empty selection it fails
with `EmptySelectionError`.  On `[a,b,c]` with selection `{b}` the
result is collection `[a,c]` and a single batch with items `[b]`. -/
theorem claim_C3_deleteSelected :
    (∀ (s : SortState) (ts : String),
      s.selectedFiles ≠ ∅ →
      ts ∉ s.deletedBatches.map DeletedBatch.timestamp →
      ∃ s' removed, deleteSelected s ts = .ok s' ∧
        (∀ f, f ∈ filenames s'.sortedScreenshots ↔
          f ∈ filenames s.sortedScreenshots ∧ f ∉ s.selectedFiles) ∧
        s'.sortedScreenshots.Sublist s.sortedScreenshots ∧
        s'.deletedBatches = s.deletedBatches ++ [⟨ts, removed, removed.length⟩] ∧
        removed.Sublist s.sortedScreenshots ∧
        (∀ f, f ∈ filenames removed ↔
          f ∈ filenames s.sortedScreenshots ∧ f ∈ s.selectedFiles) ∧
        (s'.deletedBatches.map DeletedBatch.timestamp).count ts = 1 ∧
        s'.selectedFiles = ∅ ∧ s'.hasChanges = true) ∧
    (∀ (s : SortState) (ts : String),
      s.selectedFiles = ∅ → deleteSelected s ts = .error .emptySelection) ∧
    deleteSelected demoABCsel "t1" =
      .ok ⟨[scr "a", scr "c"], [⟨"t1", [scr "b"], 1⟩], ∅, true⟩ := by
  refine ⟨?_, ?_, ?_⟩
  · intro s ts hsel hts
    have hdel : deleteSelected s ts = .ok { sortedScreenshots := s.sortedScreenshots.filter (fun x => !decide (x.filename ∈ s.selectedFiles)), deletedBatches := s.deletedBatches ++ [⟨ts, s.sortedScreenshots.filter (fun x => decide (x.filename ∈ s.selectedFiles)), (s.sortedScreenshots.filter (fun x => decide (x.filename ∈ s.selectedFiles))).length⟩], selectedFiles := ∅, hasChanges := true } := by
      simp [deleteSelected, hsel]
    refine ⟨_, _, hdel, ?_, ?_, rfl, ?_, ?_, ?_, rfl, rfl⟩
    · intro f
      exact mem_filenames_filter_not_sel s.sortedScreenshots s.selectedFiles f
    · exact List.filter_sublist _
    · exact List.filter_sublist _
    · intro f
      exact mem_filenames_filter_sel s.sortedScreenshots s.selectedFiles f
    · rw [List.map_append, List.count_append]
      rw [List.count_eq_zero.mpr hts]
      simp
  · intro s ts hsel
    simp [deleteSelected, hsel]
  · rfl

/-- Witness for C3 at the concrete `[a,b,c]` scenario. -/
theorem claim_C3_witness :
    (demoABCsel.selectedFiles ≠ ∅ ∧
      "t1" ∉ demoABCsel.deletedBatches.map DeletedBatch.timestamp) ∧
    ∃ s' removed, deleteSelected demoABCsel "t1" = .ok s' ∧
      (∀ f, f ∈ filenames s'.sortedScreenshots ↔
        f ∈ filenames demoABCsel.sortedScreenshots ∧
          f ∉ demoABCsel.selectedFiles) ∧
      s'.sortedScreenshots.Sublist demoABCsel.sortedScreenshots ∧
      s'.deletedBatches =
        demoABCsel.deletedBatches ++ [⟨"t1", removed, removed.length⟩] ∧
      removed.Sublist demoABCsel.sortedScreenshots ∧
      (∀ f, f ∈ filenames removed ↔
        f ∈ filenames demoABCsel.sortedScreenshots ∧
          f ∈ demoABCsel.selectedFiles) ∧
      (s'.deletedBatches.map DeletedBatch.timestamp).count "t1" = 1 ∧
      s'.selectedFiles = ∅ ∧ s'.hasChanges = true :=
  ⟨⟨by decide, by decide⟩,
    claim_C3_deleteSelected.1 demoABCsel "t1" (by decide) (by decide)⟩

theorem find?_timestamp_none (batches : List DeletedBatch) (ts : String)
    (hts : ts ∉ batches.map DeletedBatch.timestamp) :
    batches.find? (fun b => b.timestamp == ts) = none := by
  rw [List.find?_eq_none]
  intro b hb
  simp only [beq_iff_eq]
  intro heq
  exact hts (heq ▸ List.mem_map_of_mem DeletedBatch.timestamp hb)

/-- C4: deleting a non-empty selection and then restoring the batch it
created (no other mutation in between) yields a collection whose
multiset — hence set — of filenames equals the original one (the items
come back at the end, not at their original positions), and the batch
is removed from the undo log, which returns to its previous value;
`restoreBatch` with a timestamp absent from the undo log fails with
`BatchNotFoundError`. -/
theorem claim_C4_delete_restore :
    (∀ (s : SortState) (ts : String),
      s.selectedFiles ≠ ∅ →
      ts ∉ s.deletedBatches.map DeletedBatch.timestamp →
      ∃ s1 s2, deleteSelected s ts = .ok s1 ∧ restoreBatch s1 ts = .ok s2 ∧
        (filenames s2.sortedScreenshots).Perm
          (filenames s.sortedScreenshots) ∧
        s2.deletedBatches = s.deletedBatches) ∧
    (∀ (s : SortState) (ts : String),
      ts ∉ s.deletedBatches.map DeletedBatch.timestamp →
      restoreBatch s ts = .error .batchNotFound) := by
  constructor
  · intro s ts hsel hts
    have hdel : deleteSelected s ts = .ok { sortedScreenshots := s.sortedScreenshots.filter (fun x => !decide (x.filename ∈ s.selectedFiles)), deletedBatches := s.deletedBatches ++ [⟨ts, s.sortedScreenshots.filter (fun x => decide (x.filename ∈ s.selectedFiles)), (s.sortedScreenshots.filter (fun x => decide (x.filename ∈ s.selectedFiles))).length⟩], selectedFiles := ∅, hasChanges := true } := by
      simp [deleteSelected, hsel]
    have hnoneOld : s.deletedBatches.find? (fun b => b.timestamp == ts) = none :=
      find?_timestamp_none s.deletedBatches ts hts
    have hfind : (s.deletedBatches ++ [(⟨ts, s.sortedScreenshots.filter (fun x => decide (x.filename ∈ s.selectedFiles)), (s.sortedScreenshots.filter (fun x => decide (x.filename ∈ s.selectedFiles))).length⟩ : DeletedBatch)]).find? (fun b => b.timestamp == ts) = some ⟨ts, s.sortedScreenshots.filter (fun x => decide (x.filename ∈ s.selectedFiles)), (s.sortedScreenshots.filter (fun x => decide (x.filename ∈ s.selectedFiles))).length⟩ := by
      rw [List.find?_append, hnoneOld]
      simp
    have hnomatch : ∀ b ∈ s.deletedBatches, ¬((fun x => x.timestamp == ts) b = true) := by
      intro b hb
      have := List.find?_eq_none.mp hnoneOld b hb
      simpa using this
    have herase : (s.deletedBatches ++ [(⟨ts, s.sortedScreenshots.filter (fun x => decide (x.filename ∈ s.selectedFiles)), (s.sortedScreenshots.filter (fun x => decide (x.filename ∈ s.selectedFiles))).length⟩ : DeletedBatch)]).eraseP (fun x => x.timestamp == ts) = s.deletedBatches := by
      rw [List.eraseP_append_right _ hnomatch]
      simp
    have hres : restoreBatch { sortedScreenshots := s.sortedScreenshots.filter (fun x => !decide (x.filename ∈ s.selectedFiles)), deletedBatches := s.deletedBatches ++ [⟨ts, s.sortedScreenshots.filter (fun x => decide (x.filename ∈ s.selectedFiles)), (s.sortedScreenshots.filter (fun x => decide (x.filename ∈ s.selectedFiles))).length⟩], selectedFiles := ∅, hasChanges := true } ts = .ok { sortedScreenshots := s.sortedScreenshots.filter (fun x => !decide (x.filename ∈ s.selectedFiles)) ++ s.sortedScreenshots.filter (fun x => decide (x.filename ∈ s.selectedFiles)), deletedBatches := s.deletedBatches, selectedFiles := ∅, hasChanges := true } := by
      simp only [restoreBatch, hfind]
      rw [herase]
    have hperm : List.Perm (s.sortedScreenshots.filter (fun x => !decide (x.filename ∈ s.selectedFiles)) ++ s.sortedScreenshots.filter (fun x => decide (x.filename ∈ s.selectedFiles))) s.sortedScreenshots := by
      refine List.Perm.trans List.perm_append_comm ?_
      exact List.filter_append_perm _ _
    exact ⟨_, _, hdel, hres, hperm.map _, rfl⟩
  · intro s ts hts
    rw [restoreBatch, find?_timestamp_none s.deletedBatches ts hts]

/-- Witness for C4 at the concrete `[a,b,c]` scenario. -/
theorem claim_C4_witness :
    (demoABCsel.selectedFiles ≠ ∅ ∧
      "t1" ∉ demoABCsel.deletedBatches.map DeletedBatch.timestamp) ∧
    ∃ s1 s2, deleteSelected demoABCsel "t1" = .ok s1 ∧
      restoreBatch s1 "t1" = .ok s2 ∧
      (filenames s2.sortedScreenshots).Perm
        (filenames demoABCsel.sortedScreenshots) ∧
      s2.deletedBatches = demoABCsel.deletedBatches :=
  ⟨⟨by decide, by decide⟩,
    claim_C4_delete_restore.1 demoABCsel "t1" (by decide) (by decide)⟩

/-- Embedded from `src/pm-tool-v2/frontend/src/app/sort/page.tsx`,
`handleCardClick` (shift-click branch): `start = min(lastClickedIndex,
index)`, `end = max(lastClickedIndex, index)`, and the slice
`sortedScreenshots.slice(start, end + 1)` whose filenames become the
new selection (`slice(a, b)` is `drop a` then `take (b - a)`). -/
def sliceSelect (l : List Screenshot) (anchor target : Nat) : List Screenshot :=
  (l.drop (min anchor target)).take (max anchor target + 1 - min anchor target)

/-- Filenames of the shift-click slice as the new SelectionSet. -/
def selectRangeFiles (l : List Screenshot) (anchor target : Nat) : Finset String :=
  (filenames (sliceSelect l anchor target)).toFinset

/-- State-level shift-click: `setSelectedFiles(new Set(...))` replaces
the SelectionSet with the range, ignoring the previous selection. -/
def handleShiftClick (s : SortState) (anchor target : Nat) : SortState :=
  { s with selectedFiles := selectRangeFiles s.sortedScreenshots anchor target }

/-- C5: `selectRange` is order-independent — both argument orders give
the same SelectionSet, namely the filenames at the positions of the
contiguous inclusive range between the two indices — and it replaces
any previous selection (the result does not depend on the prior
SelectionSet). -/
theorem claim_C5_selectRange_symm :
    (∀ (l : List Screenshot) (i j : Nat),
      selectRangeFiles l i j = selectRangeFiles l j i) ∧
    (∀ (l : List Screenshot) (i j : Nat) (f : String),
      f ∈ selectRangeFiles l i j ↔
        ∃ k, min i j ≤ k ∧ k ≤ max i j ∧
          ∃ x, l[k]? = some x ∧ x.filename = f) ∧
    (∀ (s₁ s₂ : SortState) (i j : Nat),
      s₁.sortedScreenshots = s₂.sortedScreenshots →
      (handleShiftClick s₁ i j).selectedFiles =
        (handleShiftClick s₂ i j).selectedFiles) := by
  refine ⟨?_, ?_, ?_⟩
  · intro l i j
    simp [selectRangeFiles, sliceSelect, Nat.min_comm, Nat.max_comm]
  · intro l i j f
    simp only [selectRangeFiles, sliceSelect, filenames, List.mem_toFinset,
      List.mem_map]
    constructor
    · rintro ⟨x, hx, rfl⟩
      obtain ⟨k, hk⟩ := List.mem_iff_getElem?.mp hx
      rw [List.getElem?_take] at hk
      by_cases hlt : k < max i j + 1 - min i j
      · rw [if_pos hlt, List.getElem?_drop] at hk
        refine ⟨min i j + k, Nat.le_add_right _ _, ?_, x, hk, rfl⟩
        have hmm : min i j ≤ max i j := min_le_max
        omega
      · rw [if_neg hlt] at hk
        cases hk
    · rintro ⟨k, h1, h2, x, hx, rfl⟩
      refine ⟨x, ?_, rfl⟩
      refine List.mem_iff_getElem?.mpr ⟨k - min i j, ?_⟩
      rw [List.getElem?_take, if_pos (by omega), List.getElem?_drop]
      rw [show min i j + (k - min i j) = k by omega]
      exact hx
  · intro s₁ s₂ i j h
    simp [handleShiftClick, h]

/-- Witness for C5: two states sharing the demo collection but with
different prior selections produce the same range selection. -/
theorem claim_C5_witness :
    demoABCD.sortedScreenshots =
      (SortState.mk demoABCD.sortedScreenshots [] {"a"} true).sortedScreenshots ∧
    (handleShiftClick demoABCD 3 1).selectedFiles =
      (handleShiftClick
        (SortState.mk demoABCD.sortedScreenshots [] {"a"} true) 3 1).selectedFiles :=
  ⟨rfl, claim_C5_selectRange_symm.2.2 demoABCD
    (SortState.mk demoABCD.sortedScreenshots [] {"a"} true) 3 1 rfl⟩

/-- Modelled from the spec: store operation `load(projectId)` — the
store module is absent from src/.  The backend response is modelled as
`Option` (`none` = unreachable backend or invalid data).  On success
the collection is replaced and SelectionSet, undo log and DirtyFlag
are cleared; on failure the previous state is returned unchanged and
`FetchError` is surfaced. -/
def loadApply (s : SortState) (resp : Option (List Screenshot)) :
    SortState × Option SortError :=
  match resp with
  | none => (s, some .fetchError)
  | some data => (⟨data, [], ∅, false⟩, none)

/-- Modelled from the spec: store operation `save()` — persists the
order as an atomic replace call; on success clears the DirtyFlag and
touches nothing else; on failure leaves the whole state untouched and
surfaces `PersistError`. -/
def saveApply (s : SortState) (succeeded : Bool) :
    SortState × Option SortError :=
  if succeeded then ({ s with hasChanges := false }, none)
  else (s, some .persistError)

/-- C8: a failed load preserves the previous state completely and
surfaces `FetchError`; a failed save leaves the collection, selection,
undo log and DirtyFlag untouched and surfaces `PersistError` (no
partial in-memory mutation on network-class errors); a successful save
clears the DirtyFlag and changes nothing else. -/
theorem claim_C8_network_failure_atomicity :
    ∀ s : SortState,
      (loadApply s none).1 = s ∧
      (loadApply s none).2 = some .fetchError ∧
      (saveApply s false).1 = s ∧
      (saveApply s false).2 = some .persistError ∧
      (saveApply s true).1.sortedScreenshots = s.sortedScreenshots ∧
      (saveApply s true).1.deletedBatches = s.deletedBatches ∧
      (saveApply s true).1.selectedFiles = s.selectedFiles ∧
      (saveApply s true).1.hasChanges = false ∧
      (saveApply s true).2 = none := by
  intro s
  refine ⟨rfl, rfl, rfl, rfl, rfl, rfl, rfl, rfl, rfl⟩

/-- Modelled from the spec: the save serialization discipline of
section 5 — a save in flight blocks a new save request; a request
arriving while one is in flight is queued (coalesced, keeping the
newest order); a completion writes the in-flight order to the backend
and promotes the queued request, if any, to in-flight. -/
structure SaveMgr where
  backend : List String
  inFlight : Option (List String)
  queued : Option (List String)
deriving DecidableEq

/-- Events of the save serialization model: a user-issued save request
carrying the order to persist, or the completion of the in-flight
network call. -/
inductive SaveEvent where
  | request (order : List String)
  | complete

/-- One step of the serialized save manager. -/
def saveStep (m : SaveMgr) : SaveEvent → SaveMgr
  | .request o =>
    match m.inFlight with
    | none => { m with inFlight := some o }
    | some f => { backend := m.backend, inFlight := some f, queued := some o }
  | .complete =>
    match m.inFlight with
    | none => m
    | some o =>
      match m.queued with
      | none => { backend := o, inFlight := none, queued := none }
      | some q => { backend := o, inFlight := some q, queued := none }

/-- Run a sequence of save events. -/
def runSave (m : SaveMgr) : List SaveEvent → SaveMgr
  | [] => m
  | e :: es => runSave (saveStep m e) es

/-- The orders written to the backend while running the events, in
write order. -/
def saveWrites (m : SaveMgr) : List SaveEvent → List (List String)
  | [] => []
  | e :: es =>
    match e, m.inFlight with
    | .complete, some o => o :: saveWrites (saveStep m e) es
    | .complete, none => saveWrites (saveStep m e) es
    | .request _, _ => saveWrites (saveStep m e) es

/-- C9: two save requests issued while the first is still in flight
are serialized: the backend receives the writes in request order —
first the older order, then the newer one — and the final stored order
is the newer one; the older order never overwrites it afterwards.  In
particular the `[a,b]` then `[a,b,c]` scenario ends with `[a,b,c]`
stored. -/
theorem claim_C9_save_serialization :
    (∀ (m : SaveMgr) (o1 o2 : List String),
      m.inFlight = none → m.queued = none →
      (runSave m [.request o1, .request o2, .complete, .complete]).backend = o2 ∧
      saveWrites m [.request o1, .request o2, .complete, .complete] = [o1, o2]) ∧
    (runSave ⟨[], none, none⟩
      [.request ["a", "b"], .request ["a", "b", "c"],
        .complete, .complete]).backend = ["a", "b", "c"] := by
  constructor
  · intro m o1 o2 h1 h2
    obtain ⟨b, f, q⟩ := m
    simp only at h1 h2
    subst h1; subst h2
    exact ⟨rfl, rfl⟩
  · rfl

/-- Witness for C9 at the concrete `[a,b]` / `[a,b,c]` scenario. -/
theorem claim_C9_witness :
    ((⟨[], none, none⟩ : SaveMgr).inFlight = none ∧
      (⟨[], none, none⟩ : SaveMgr).queued = none) ∧
    (runSave ⟨[], none, none⟩
      [.request ["a", "b"], .request ["a", "b", "c"],
        .complete, .complete]).backend = ["a", "b", "c"] ∧
    saveWrites ⟨[], none, none⟩
      [.request ["a", "b"], .request ["a", "b", "c"],
        .complete, .complete] = [["a", "b"], ["a", "b", "c"]] :=
  ⟨⟨rfl, rfl⟩,
    claim_C9_save_serialization.1 ⟨[], none, none⟩ ["a", "b"] ["a", "b", "c"]
      rfl rfl⟩

/-- Embedded from `src/pm-tool-v2/frontend/src/app/sort/page.tsx`,
`handleKeyDown`: the Delete-key branch runs only when
`selectedFiles.size > 0`, and then calls `deleteSelected` when
`count <= 10` or `window.confirm` returned true (short-circuit: no
confirmation prompt at all for ten or fewer). -/
def deleteKeyFires (size : Nat) (confirmed : Bool) : Bool :=
  decide (0 < size) && (decide (size ≤ 10) || confirmed)

/-- Embedded from `handleDeleteSelected` in the same file: requires a
selected project, then calls `deleteSelected` when `count <= 10` or
the user confirmed. -/
def deleteButtonFires (hasProject : Bool) (size : Nat) (confirmed : Bool) : Bool :=
  hasProject && (decide (size ≤ 10) || confirmed)

/-- C10: the Delete-key handler invokes `deleteSelected` only with a
non-empty selection, so the `EmptySelectionError` branch is
unreachable from that call site; for both the key handler and the
delete button, a call with more than ten selected files happens only
after an affirmative confirmation, while a call with at most ten
proceeds without any confirmation. -/
theorem claim_C10_delete_guards :
    (∀ (size : Nat) (c : Bool), deleteKeyFires size c = true → 0 < size) ∧
    (∀ (s : SortState) (ts : String) (c : Bool),
      deleteKeyFires s.selectedFiles.card c = true →
      deleteSelected s ts ≠ .error .emptySelection) ∧
    (∀ (size : Nat) (c : Bool), 10 < size →
      deleteKeyFires size c = true → c = true) ∧
    (∀ (hp : Bool) (size : Nat) (c : Bool), 10 < size →
      deleteButtonFires hp size c = true → c = true) ∧
    (∀ size : Nat, 0 < size → size ≤ 10 → deleteKeyFires size false = true) ∧
    (∀ size : Nat, size ≤ 10 → deleteButtonFires true size false = true) := by
  refine ⟨?_, ?_, ?_, ?_, ?_, ?_⟩
  · intro size c h
    simp [deleteKeyFires] at h
    exact h.1
  · intro s ts c h
    simp [deleteKeyFires] at h
    have hne : s.selectedFiles ≠ ∅ := by
      intro hempty
      rw [hempty] at h
      simp at h
    intro hcontra
    rw [deleteSelected, if_neg hne] at hcontra
    cases hcontra
  · intro size c hgt h
    simp [deleteKeyFires] at h
    rcases h.2 with h2 | h2
    · omega
    · exact h2
  · intro hp size c hgt h
    simp [deleteButtonFires] at h
    rcases h.2 with h2 | h2
    · omega
    · exact h2
  · intro size h0 h10
    simp [deleteKeyFires, h0, h10]
  · intro size h10
    simp [deleteButtonFires, h10]

/-- Witness for C10 at a concrete selection of size one. -/
theorem claim_C10_witness :
    deleteKeyFires demoABCsel.selectedFiles.card false = true ∧
    deleteSelected demoABCsel "t9" ≠ .error .emptySelection :=
  ⟨by decide,
    claim_C10_delete_guards.2.1 demoABCsel "t9" false (by decide)⟩

/-- Modelled from the spec: store operation `toggleSelect(filename)` —
adds/removes a single filename from the SelectionSet; no-op when the
filename is absent from the collection. -/
def toggleSelect (s : SortState) (f : String) : SortState :=
  if f ∈ s.selectedFiles then { s with selectedFiles := s.selectedFiles.erase f }
  else if f ∈ filenames s.sortedScreenshots then
    { s with selectedFiles := insert f s.selectedFiles }
  else s

/-- Modelled from the spec: store operation `selectAll()`. -/
def selectAll (s : SortState) : SortState :=
  { s with selectedFiles := (filenames s.sortedScreenshots).toFinset }

/-- Modelled from the spec: store operation `clearSelection()`
(`deselectAll` in the page source). -/
def deselectAll (s : SortState) : SortState :=
  { s with selectedFiles := ∅ }

/-- Disjointness of the filename sets of two deleted batches. -/
def batchDisj (b1 b2 : DeletedBatch) : Prop :=
  ∀ f ∈ filenames b1.items, f ∉ filenames b2.items

/-- The data-model invariants of the spec (section 3), strengthened
with the batch-disjointness facts needed for them to be inductive:
the collection has no duplicate filenames, the SelectionSet is a
subset of the collection filenames, every batch is duplicate-free,
batch filenames are disjoint from the collection, and batches are
pairwise disjoint. -/
structure Inv (s : SortState) : Prop where
  nodupCol : (filenames s.sortedScreenshots).Nodup
  selSub : ∀ f ∈ s.selectedFiles, f ∈ filenames s.sortedScreenshots
  nodupBatch : ∀ b ∈ s.deletedBatches, (filenames b.items).Nodup
  disjBatchCol : ∀ b ∈ s.deletedBatches,
    ∀ f ∈ filenames b.items, f ∉ filenames s.sortedScreenshots
  disjPair : s.deletedBatches.Pairwise batchDisj

/-- One user-visible operation of the store, as dispatched by the sort
page.  The drop-insertion step carries the backend import contract:
the imported filenames are fresh (the backend mints `new_filename`),
mutually distinct, and unused by any deleted batch. -/
inductive Step : SortState → SortState → Prop where
  | reorderOp (s : SortState) (i j : Nat) : Step s (reorder s i j)
  | dropInsert (s : SortState) (index : Nat) (news : List Screenshot)
      (hnodup : (filenames news).Nodup)
      (hfreshCol : ∀ f ∈ filenames news, f ∉ filenames s.sortedScreenshots)
      (hfreshBatch : ∀ b ∈ s.deletedBatches,
        ∀ f ∈ filenames news, f ∉ filenames b.items) :
      Step s { s with
        sortedScreenshots := handleDropInsert s.sortedScreenshots index news,
        hasChanges := true }
  | toggleOp (s : SortState) (f : String) : Step s (toggleSelect s f)
  | selectAllOp (s : SortState) : Step s (selectAll s)
  | deselectAllOp (s : SortState) : Step s (deselectAll s)
  | selectRangeOp (s : SortState) (i j : Nat) : Step s (handleShiftClick s i j)
  | singleSelectOp (s : SortState) (f : String)
      (h : f ∈ filenames s.sortedScreenshots) :
      Step s { s with selectedFiles := {f} }
  | deleteOp (s s2 : SortState) (ts : String)
      (h : deleteSelected s ts = .ok s2) : Step s s2
  | restoreOp (s s2 : SortState) (ts : String)
      (h : restoreBatch s ts = .ok s2) : Step s s2
  | loadOk (s : SortState) (data : List Screenshot)
      (hnodup : (filenames data).Nodup) : Step s (loadApply s (some data)).1
  | loadFail (s : SortState) : Step s (loadApply s none).1
  | saveOp (s : SortState) (succeeded : Bool) : Step s (saveApply s succeeded).1

/-- The empty store state a project session starts from. -/
def initState : SortState :=
  ⟨[], [], ∅, false⟩

/-- States reachable from the empty state through store operations. -/
inductive Reachable : SortState → Prop where
  | init : Reachable initState
  | step {s s2 : SortState} : Reachable s → Step s s2 → Reachable s2

theorem not_mem_comm_list {A B : List String}
    (h : ∀ f ∈ A, f ∉ B) : ∀ f ∈ B, f ∉ A :=
  fun f hfB hfA => h f hfA hfB

theorem deleteSelected_ok_inv {s s2 : SortState} {ts : String}
    (h : deleteSelected s ts = .ok s2) :
    s.selectedFiles ≠ ∅ ∧
    s2 = { sortedScreenshots := s.sortedScreenshots.filter (fun x => !decide (x.filename ∈ s.selectedFiles)), deletedBatches := s.deletedBatches ++ [⟨ts, s.sortedScreenshots.filter (fun x => decide (x.filename ∈ s.selectedFiles)), (s.sortedScreenshots.filter (fun x => decide (x.filename ∈ s.selectedFiles))).length⟩], selectedFiles := ∅, hasChanges := true } := by
  by_cases hsel : s.selectedFiles = ∅
  · rw [deleteSelected, if_pos hsel] at h
    cases h
  · rw [deleteSelected, if_neg hsel] at h
    injection h with h2
    exact ⟨hsel, h2.symm⟩

theorem restoreBatch_ok_inv {s s2 : SortState} {ts : String}
    (h : restoreBatch s ts = .ok s2) :
    ∃ b, s.deletedBatches.find? (fun x => x.timestamp == ts) = some b ∧
      s2 = { sortedScreenshots := s.sortedScreenshots ++ b.items, deletedBatches := s.deletedBatches.eraseP (fun x => x.timestamp == ts), selectedFiles := s.selectedFiles, hasChanges := true } := by
  cases hf : s.deletedBatches.find? (fun x => x.timestamp == ts) with
  | none =>
    rw [restoreBatch] at h
    rw [hf] at h
    cases h
  | some b =>
    rw [restoreBatch] at h
    rw [hf] at h
    injection h with h2
    exact ⟨b, rfl, h2.symm⟩

theorem arrayMove_perm_all {α : Type} (l : List α) (i j : Nat) :
    (arrayMove l i j).Perm l := by
  by_cases h : i < l.length
  · exact arrayMove_perm l i j h
  · rw [arrayMove, List.getElem?_eq_none (by omega)]

theorem filenames_handleDropInsert_perm (l : List Screenshot) (t : Nat)
    (news : List Screenshot) :
    (filenames (handleDropInsert l t news)).Perm
      (filenames news ++ filenames l) := by
  have h1 : filenames (handleDropInsert l t news) =
      filenames (l.take t) ++ (filenames news ++ filenames (l.drop t)) := by
    simp [handleDropInsert, filenames]
  rw [h1]
  have h2 : List.Perm
      (filenames (l.take t) ++ (filenames news ++ filenames (l.drop t)))
      (filenames news ++ (filenames (l.take t) ++ filenames (l.drop t))) :=
    List.perm_append_comm_assoc _ _ _
  refine h2.trans ?_
  have h3 : filenames (l.take t) ++ filenames (l.drop t) = filenames l := by
    rw [filenames, filenames, filenames, ← List.map_append, List.take_append_drop]
  rw [h3]

theorem selectRangeFiles_subset (l : List Screenshot) (i j : Nat) :
    ∀ f ∈ selectRangeFiles l i j, f ∈ filenames l := by
  intro f hf
  rw [selectRangeFiles, List.mem_toFinset] at hf
  have hsub : (sliceSelect l i j).Sublist l :=
    (List.take_sublist _ _).trans (List.drop_sublist _ _)
  exact (filenames_sublist_of_sublist hsub).subset hf

theorem filenames_append (l1 l2 : List Screenshot) :
    filenames (l1 ++ l2) = filenames l1 ++ filenames l2 :=
  List.map_append _ _ _

theorem Inv_of_perm {s s2 : SortState}
    (hcol : (filenames s2.sortedScreenshots).Perm (filenames s.sortedScreenshots))
    (hbat : s2.deletedBatches = s.deletedBatches)
    (hsel : s2.selectedFiles = s.selectedFiles)
    (hInv : Inv s) : Inv s2 := by
  refine ⟨hcol.symm.nodup hInv.nodupCol, ?_, ?_, ?_, ?_⟩
  · intro f hf
    rw [hsel] at hf
    exact hcol.mem_iff.mpr (hInv.selSub f hf)
  · rw [hbat]
    exact hInv.nodupBatch
  · intro b hb f hf
    rw [hbat] at hb
    intro hcon
    exact hInv.disjBatchCol b hb f hf (hcol.mem_iff.mp hcon)
  · rw [hbat]
    exact hInv.disjPair

theorem Inv_of_sel {s : SortState} (hInv : Inv s) (sel2 : Finset String)
    (hsub : ∀ f ∈ sel2, f ∈ filenames s.sortedScreenshots) :
    Inv { s with selectedFiles := sel2 } :=
  ⟨hInv.nodupCol, hsub, hInv.nodupBatch, hInv.disjBatchCol, hInv.disjPair⟩

theorem Inv_dropInsert {s : SortState} {index : Nat} {news : List Screenshot}
    (hInv : Inv s)
    (hnodup : (filenames news).Nodup)
    (hfreshCol : ∀ f ∈ filenames news, f ∉ filenames s.sortedScreenshots)
    (hfreshBatch : ∀ b ∈ s.deletedBatches,
      ∀ f ∈ filenames news, f ∉ filenames b.items) :
    Inv { s with
      sortedScreenshots := handleDropInsert s.sortedScreenshots index news,
      hasChanges := true } := by
  have hperm := filenames_handleDropInsert_perm s.sortedScreenshots index news
  have hmem : ∀ f, f ∈ filenames (handleDropInsert s.sortedScreenshots index news)
      ↔ (f ∈ filenames news ∨ f ∈ filenames s.sortedScreenshots) := by
    intro f
    rw [hperm.mem_iff, List.mem_append]
  refine ⟨?_, ?_, hInv.nodupBatch, ?_, hInv.disjPair⟩
  · refine hperm.symm.nodup ?_
    rw [List.nodup_append]
    exact ⟨hnodup, hInv.nodupCol, fun f hf1 hf2 => hfreshCol f hf1 hf2⟩
  · intro f hf
    rw [hmem]
    exact Or.inr (hInv.selSub f hf)
  · intro b hb f hf
    rw [hmem]
    rintro (hc | hc)
    · exact hfreshBatch b hb f hc hf
    · exact hInv.disjBatchCol b hb f hf hc

theorem Inv_delete {s s2 : SortState} {ts : String} (hInv : Inv s)
    (h : deleteSelected s ts = .ok s2) : Inv s2 := by
  obtain ⟨hsel, rfl⟩ := deleteSelected_ok_inv h
  refine ⟨?_, ?_, ?_, ?_, ?_⟩
  · exact (filenames_sublist_of_sublist (List.filter_sublist _)).nodup hInv.nodupCol
  · intro f hf
    exact absurd hf (Finset.not_mem_empty f)
  · intro b hb
    rcases List.mem_append.mp hb with hb2 | hb2
    · exact hInv.nodupBatch b hb2
    · rw [List.mem_singleton] at hb2
      subst hb2
      exact (filenames_sublist_of_sublist (List.filter_sublist _)).nodup hInv.nodupCol
  · intro b hb f hf
    rcases List.mem_append.mp hb with hb2 | hb2
    · intro hcon
      rw [mem_filenames_filter_not_sel] at hcon
      exact hInv.disjBatchCol b hb2 f hf hcon.1
    · rw [List.mem_singleton] at hb2
      subst hb2
      rw [mem_filenames_filter_sel] at hf
      intro hcon
      rw [mem_filenames_filter_not_sel] at hcon
      exact hcon.2 hf.2
  · rw [List.pairwise_append]
    refine ⟨hInv.disjPair, List.pairwise_singleton _ _, ?_⟩
    intro b1 hb1 b2 hb2
    rw [List.mem_singleton] at hb2
    subst hb2
    intro f hf1 hf2
    rw [mem_filenames_filter_sel] at hf2
    exact hInv.disjBatchCol b1 hb1 f hf1 hf2.1

theorem Inv_restore {s s2 : SortState} {ts : String} (hInv : Inv s)
    (h : restoreBatch s ts = .ok s2) : Inv s2 := by
  obtain ⟨b, hf, rfl⟩ := restoreBatch_ok_inv h
  have hb : b ∈ s.deletedBatches := List.mem_of_find?_eq_some hf
  obtain ⟨hpb, as, bs, hsplit, hnomatch⟩ := List.find?_eq_some.mp hf
  have herase : s.deletedBatches.eraseP (fun x => x.timestamp == ts) = as ++ bs := by
    rw [hsplit, List.eraseP_append_right _
      (fun a ha => by simpa using hnomatch a ha)]
    simp [List.eraseP_cons, hpb]
  have hmemOld : ∀ b2, b2 ∈ as ++ bs → b2 ∈ s.deletedBatches := by
    intro b2 hb2
    rw [hsplit]
    rcases List.mem_append.mp hb2 with h2 | h2
    · exact List.mem_append.mpr (Or.inl h2)
    · exact List.mem_append.mpr (Or.inr (List.mem_cons_of_mem b h2))
  have hdisjB : ∀ b2, b2 ∈ as ++ bs → ∀ f ∈ filenames b2.items,
      f ∉ filenames b.items := by
    intro b2 hb2 f hf2
    have hpair := hInv.disjPair
    rw [hsplit, List.pairwise_append] at hpair
    rcases List.mem_append.mp hb2 with h2 | h2
    · exact hpair.2.2 b2 h2 b (List.mem_cons_self b bs) f hf2
    · have hcons := hpair.2.1
      rw [List.pairwise_cons] at hcons
      exact not_mem_comm_list (hcons.1 b2 h2) f hf2
  refine ⟨?_, ?_, ?_, ?_, ?_⟩
  · rw [filenames_append, List.nodup_append]
    exact ⟨hInv.nodupCol, hInv.nodupBatch b hb,
      fun f hf1 hf2 => hInv.disjBatchCol b hb f hf2 hf1⟩
  · intro f hfsel
    rw [filenames_append]
    exact List.mem_append.mpr (Or.inl (hInv.selSub f hfsel))
  · intro b2 hb2
    rw [herase] at hb2
    exact hInv.nodupBatch b2 (hmemOld b2 hb2)
  · intro b2 hb2 f hf2
    rw [herase] at hb2
    rw [filenames_append]
    intro hcon
    rcases List.mem_append.mp hcon with hc | hc
    · exact hInv.disjBatchCol b2 (hmemOld b2 hb2) f hf2 hc
    · exact hdisjB b2 hb2 f hf2 hc
  · rw [herase]
    have hsub2 : (as ++ bs).Sublist (as ++ b :: bs) :=
      List.Sublist.append_left (List.sublist_cons_self b bs) as
    have hpair := hInv.disjPair
    rw [hsplit] at hpair
    exact List.Pairwise.sublist hsub2 hpair

theorem reorder_filenames_perm (s : SortState) (i j : Nat) :
    (filenames (reorder s i j).sortedScreenshots).Perm
      (filenames s.sortedScreenshots) := by
  rw [reorder]
  split
  · exact List.Perm.refl _
  · exact (arrayMove_perm_all _ i j).map _

theorem reorder_deletedBatches (s : SortState) (i j : Nat) :
    (reorder s i j).deletedBatches = s.deletedBatches := by
  rw [reorder]
  split <;> rfl

theorem reorder_selectedFiles (s : SortState) (i j : Nat) :
    (reorder s i j).selectedFiles = s.selectedFiles := by
  rw [reorder]
  split <;> rfl

theorem step_preserves {s s2 : SortState} (hInv : Inv s) (h : Step s s2) :
    Inv s2 := by
  cases h with
  | reorderOp i j =>
    exact Inv_of_perm (reorder_filenames_perm s i j)
      (reorder_deletedBatches s i j) (reorder_selectedFiles s i j) hInv
  | dropInsert index news hnodup hfreshCol hfreshBatch =>
    exact Inv_dropInsert hInv hnodup hfreshCol hfreshBatch
  | toggleOp f =>
    by_cases h1 : f ∈ s.selectedFiles
    · rw [toggleSelect, if_pos h1]
      exact Inv_of_sel hInv _
        (fun g hg => hInv.selSub g (Finset.mem_of_mem_erase hg))
    · rw [toggleSelect, if_neg h1]
      by_cases h2 : f ∈ filenames s.sortedScreenshots
      · rw [if_pos h2]
        refine Inv_of_sel hInv _ (fun g hg => ?_)
        rcases Finset.mem_insert.mp hg with rfl | hg2
        · exact h2
        · exact hInv.selSub g hg2
      · rw [if_neg h2]
        exact hInv
  | selectAllOp =>
    exact Inv_of_sel hInv _ (fun g hg => List.mem_toFinset.mp hg)
  | deselectAllOp =>
    exact Inv_of_sel hInv _ (fun g hg => absurd hg (Finset.not_mem_empty g))
  | selectRangeOp i j =>
    exact Inv_of_sel hInv _ (selectRangeFiles_subset s.sortedScreenshots i j)
  | singleSelectOp f hmem =>
    refine Inv_of_sel hInv _ (fun g hg => ?_)
    rw [Finset.mem_singleton] at hg
    subst hg
    exact hmem
  | deleteOp s2 ts h2 =>
    exact Inv_delete hInv h2
  | restoreOp s2 ts h2 =>
    exact Inv_restore hInv h2
  | loadOk data hnodup =>
    exact ⟨hnodup, fun f hf => absurd hf (Finset.not_mem_empty f),
      fun b hb => absurd hb (List.not_mem_nil b),
      fun b hb => absurd hb (List.not_mem_nil b), List.Pairwise.nil⟩
  | loadFail =>
    exact hInv
  | saveOp succeeded =>
    cases succeeded
    · exact hInv
    · exact ⟨hInv.nodupCol, hInv.selSub, hInv.nodupBatch,
        hInv.disjBatchCol, hInv.disjPair⟩

/-- C7: every reachable state of the store satisfies the two
data-model invariants — the collection has no duplicate filenames and
the SelectionSet is a subset of the collection's filenames — and they
are preserved by every operation, including the drop-insertion paths
(whose imported filenames are fresh by the backend import contract). -/
theorem claim_C7_invariants :
    ∀ s : SortState, Reachable s →
      (filenames s.sortedScreenshots).Nodup ∧
      ∀ f ∈ s.selectedFiles, f ∈ filenames s.sortedScreenshots := by
  have key : ∀ s : SortState, Reachable s → Inv s := by
    intro s h
    induction h with
    | init =>
      exact ⟨List.Pairwise.nil, fun f hf => absurd hf (Finset.not_mem_empty f),
        fun b hb => absurd hb (List.not_mem_nil b),
        fun b hb => absurd hb (List.not_mem_nil b), List.Pairwise.nil⟩
    | step _ hstep ih =>
      exact step_preserves ih hstep
  intro s h
  exact ⟨(key s h).nodupCol, (key s h).selSub⟩

/-- Witness for C7: the empty initial state is reachable and satisfies
both invariants. -/
theorem claim_C7_witness :
    Reachable initState ∧
    (filenames initState.sortedScreenshots).Nodup ∧
    ∀ f ∈ initState.selectedFiles, f ∈ filenames initState.sortedScreenshots :=
  ⟨Reachable.init, claim_C7_invariants initState Reachable.init⟩

end OrderingStore
